import Mathlib

/-!
Verification of the OmniVanity search core against its specification.

The Rust sources are shallowly embedded: Rust `String`s become `List Char`,
byte slices become `List Nat` (each entry a byte value), pure functions become
Lean functions, and the concurrent CPU search loop becomes an explicit
small-step machine driven by a scheduler.  Non-ASCII-specific behaviour of
Rust's Unicode `to_lowercase` is modelled by the ASCII `Char.toLower`
(every alphabet the program uses is ASCII).  External crates (`k256`,
`ed25519-dalek`, `bs58`) are modelled by explicit parameters or by faithful
re-implementations, as noted at each definition.
-/

namespace OmniVanity

/-! ## Basic string helpers (over `List Char`) -/

/-- `isPre p s` models Rust `s.starts_with(p)`: `p` is a leading run of `s`. -/
def isPre : List Char → List Char → Bool
  | [], _ => true
  | _ :: _, [] => false
  | p :: ps, a :: as => p == a && isPre ps as

/-- Models Rust `s.ends_with(p)`. -/
def isSuf (p s : List Char) : Bool := isPre p.reverse s.reverse

/-- Models Rust `s.contains(p)` (substring test). -/
def hasSub : List Char → List Char → Bool
  | [], p => isPre p []
  | a :: as, p => isPre p (a :: as) || hasSub as p

/-- ASCII case folding of a string, one character at a time.  Models both
Rust `to_lowercase` and `to_ascii_lowercase` on the ASCII alphabets used by
the program. -/
def lowerStr (s : List Char) : List Char := s.map Char.toLower

/-! ## Pattern matcher (omnivanity-pattern/src/matcher.rs) -/

/-- `PatternType` from matcher.rs. -/
inductive PatternType where
  | Prefix
  | Suffix
  | Contains
  deriving DecidableEq

/-- `Pattern` from matcher.rs. -/
structure Pattern where
  value : List Char
  patternType : PatternType
  caseInsensitive : Bool
  deriving DecidableEq

/-- `PatternError` from matcher.rs. -/
inductive PatternError where
  | EmptyPattern
  | InvalidCharacter (c : Char) (valid : List Char)
  | PatternTooLong (n : Nat)
  deriving DecidableEq

instance {ε α : Type} [DecidableEq ε] [DecidableEq α] : DecidableEq (Except ε α) := fun
  | .error e, .error f => decidable_of_iff (e = f) (by simp)
  | .error _, .ok _ => isFalse (by simp)
  | .ok _, .error _ => isFalse (by simp)
  | .ok a, .ok b => decidable_of_iff (a = b) (by simp)

/-- The per-character loop body of `Pattern::validate`. -/
def validateChars (ci : Bool) (validChars : List Char) : List Char → Except PatternError Unit
  | [] => .ok ()
  | c :: rest =>
    let checkChar := if ci then c.toLower else c
    let ok := if ci then (lowerStr validChars).contains checkChar else validChars.contains c
    if ok then validateChars ci validChars rest
    else .error (.InvalidCharacter c validChars)

/-- `Pattern::validate` from matcher.rs. -/
def Pattern.validate (p : Pattern) (validChars : List Char) : Except PatternError Unit :=
  if p.value.isEmpty then .error .EmptyPattern
  else validateChars p.caseInsensitive validChars p.value

/-- The visible-head stripping chain inside `PatternMatcher::check_pattern`
(the `PatternType::Prefix` arm), verbatim from the source's if-chain. -/
def stripVisible (addr : List Char) : List Char :=
  if isPre ['0', 'x'] addr then addr.drop 2
  else if isPre ['b', 'c', '1', 'q'] addr || isPre ['b', 'c', '1', 'p'] addr then addr.drop 4
  else if isPre ['l', 't', 'c', '1', 'q'] addr then addr.drop 5
  else if isPre ['t', '1'] addr then addr.drop 2
  else if addr.length > 1 &&
      (isPre ['1'] addr || isPre ['3'] addr || isPre ['L'] addr ||
       isPre ['M'] addr || isPre ['D'] addr) then addr.drop 1
  else addr

/-- `PatternMatcher::check_pattern` from matcher.rs. -/
def checkPattern (address : List Char) (p : Pattern) : Bool :=
  let addr := if p.caseInsensitive then lowerStr address else address
  let pat := if p.caseInsensitive then lowerStr p.value else p.value
  match p.patternType with
  | .Prefix => isPre pat (stripVisible addr)
  | .Suffix => isSuf pat addr
  | .Contains => hasSub addr pat

/-- Index-tracking loop of `PatternMatcher::matches`. -/
def matchesFrom (address : List Char) (i : Nat) : List Pattern → Option Nat
  | [] => none
  | p :: rest =>
    if checkPattern address p then some i else matchesFrom address (i + 1) rest

/-- `PatternMatcher::matches`: index of the first pattern accepting the
address, if any. -/
def pmMatches (patterns : List Pattern) (address : List Char) : Option Nat :=
  matchesFrom address 0 patterns

/-! ## Chain data model (omnivanity-chains/src/traits.rs) -/

/-- `AddressType` from traits.rs (the variants exercised by the claims). -/
inductive AddressType where
  | Evm
  | P2pkh
  | P2sh
  | P2wpkh
  | P2tr
  | Solana
  deriving DecidableEq

/-- `GeneratedAddress` from traits.rs. -/
structure GeneratedAddress where
  address : List Char
  privateKeyHex : List Char
  privateKeyNative : List Char
  publicKeyHex : List Char
  chain : List Char
  addressType : AddressType
  deriving DecidableEq

/-! ## CPU search engine (omnivanity-core/src/search.rs, run_cpu)

`VanitySearch::run_cpu` spawns `num_threads` rayon workers that share an
atomic `SearchStats` record and a single-slot crossbeam channel.  We embed it
as a small-step machine: the global state holds the shared atomics and the
channel slot; each worker holds its loop position.  A scheduler function
picks, at every step, which worker moves and whether the wall-clock bound
test (`elapsed().as_secs() >= max_time`) would fire at that instant; real
time itself is not modelled.  Worker randomness is modelled by a stream
`gen : Nat → Nat → GeneratedAddress` giving worker `w`'s `i`-th draw of
`self.chain.generate(self.address_type)`. -/

/-- The relevant fields of `SearchConfig`. -/
structure SearchConfig where
  batchSize : Nat
  maxAttempts : Nat
  maxTimeSecs : Nat
  deriving DecidableEq

/-- A worker's position inside the `run_cpu` loop body: at the `while` test,
inside the `for _ in 0..batch_size` body with `k` iterations left, or
returned. -/
inductive WPhase where
  | top
  | inBatch (k : Nat)
  | done
  deriving DecidableEq

/-- Per-worker state: loop phase, next index into the worker's random
stream, and the `local_count` variable. -/
structure WState where
  phase : WPhase
  pos : Nat
  localCount : Nat
  deriving DecidableEq

/-- Shared state of `run_cpu`: the `SearchStats` atomics (`keys_tested`,
`running`, `found`), the single-slot result channel, and the worker pool.
`completedBatches` is a history variable counting executed `add_keys
(batch_size)` calls; it influences no transition and exists only to state
the batch-granularity invariant. -/
structure GState where
  keysTested : Nat
  running : Bool
  found : Bool
  slot : Option GeneratedAddress
  workers : List WState
  completedBatches : Nat
  deriving DecidableEq

/-- One step of worker `w` (whose random stream is `genW`), given the
oracle answer `timeUp` for the wall-clock test at this instant.  Returns the
new shared state and the new worker state.  Mirrors the loop body of
`run_cpu` line by line:
* at the `while` head: test `is_running`, then the `max_attempts` bound
  (`stop(); break`), then the `max_time` bound, else enter the batch;
* a `break` falls through to `if local_count > 0 { add_keys(local_count) }`;
* inside the batch: generate, test the matcher — on a hit `try_send` into
  the single-slot channel (dropped if full), `mark_found` (sets `found`,
  clears `running`) and `return` (skipping the trailing `add_keys`) — else
  `local_count += 1`;
* after `batch_size` iterations: `add_keys(batch_size)`, reset
  `local_count`, back to the `while` head. -/
def workerStep (cfg : SearchConfig) (patterns : List Pattern)
    (genW : Nat → GeneratedAddress) (timeUp : Bool) (g : GState) (w : WState) :
    GState × WState :=
  match w.phase with
  | .done => (g, w)
  | .top =>
    if !g.running then
      ({ g with keysTested := g.keysTested + w.localCount }, { w with phase := .done })
    else if cfg.maxAttempts > 0 && g.keysTested ≥ cfg.maxAttempts then
      ({ g with running := false, keysTested := g.keysTested + w.localCount },
       { w with phase := .done })
    else if cfg.maxTimeSecs > 0 && timeUp then
      ({ g with running := false, keysTested := g.keysTested + w.localCount },
       { w with phase := .done })
    else (g, { w with phase := .inBatch cfg.batchSize })
  | .inBatch 0 =>
    ({ g with keysTested := g.keysTested + cfg.batchSize,
              completedBatches := g.completedBatches + 1 },
     { w with phase := .top, localCount := 0 })
  | .inBatch (k + 1) =>
    let addr := genW w.pos
    if (pmMatches patterns addr.address).isSome then
      ({ g with slot := if g.slot.isNone then some addr else g.slot,
                found := true, running := false },
       { w with phase := .done, pos := w.pos + 1 })
    else (g, { w with phase := .inBatch k, pos := w.pos + 1, localCount := w.localCount + 1 })

/-- One step of the whole pool: the scheduler chose worker `choice.1` and
wall-clock oracle answer `choice.2`.  A choice naming no worker moves
nothing. -/
def stepSys (cfg : SearchConfig) (patterns : List Pattern)
    (gen : Nat → Nat → GeneratedAddress) (g : GState) (choice : Nat × Bool) : GState :=
  match g.workers.get? choice.1 with
  | none => g
  | some w =>
    let r := workerStep cfg patterns (gen choice.1) choice.2 g w
    { r.1 with workers := g.workers.set choice.1 r.2 }

/-- Initial state of `run_cpu` with `n` workers: counters zero, `running`
true, channel empty. -/
def initState (n : Nat) : GState :=
  ⟨0, true, false, none, List.replicate n ⟨.top, 0, 0⟩, 0⟩

/-- The machine after `n` scheduler steps, starting from `numThreads`
fresh workers (`numThreads` is the resolved thread count of `run_cpu`,
which is `num_cpus::get()` when `config.threads == 0`, hence positive). -/
def runSys (cfg : SearchConfig) (patterns : List Pattern)
    (gen : Nat → Nat → GeneratedAddress) (sched : Nat → Nat × Bool)
    (numThreads : Nat) : Nat → GState
  | 0 => initState numThreads
  | n + 1 => stepSys cfg patterns gen (runSys cfg patterns gen sched numThreads n) (sched n)

/-- All workers have returned: the point where `pool.install` hands back
control in `run_cpu`. -/
def allDone (g : GState) : Prop := ∀ w ∈ g.workers, w.phase = WPhase.done

instance (g : GState) : Decidable (allDone g) := by
  unfold allDone; infer_instance

/-- The fields of `SearchResult` the claims speak about (the two floating
point telemetry fields are dropped). -/
structure SearchResult where
  address : GeneratedAddress
  patternStr : List Char
  keysTested : Nat
  deriving DecidableEq

/-- The value of `self.matcher.patterns().first().map(|p| p.value.clone())
.unwrap_or_default()`. -/
def firstPatternValue (patterns : List Pattern) : List Char :=
  ((patterns.head?).map Pattern.value).getD []

/-- The tail of `run_cpu`: after the pool completes, `rx.try_recv()` turns
the channel slot into the returned `Option<SearchResult>`. -/
def cpuResult (patterns : List Pattern) (g : GState) : Option SearchResult :=
  match g.slot with
  | some addr => some ⟨addr, firstPatternValue patterns, g.keysTested⟩
  | none => none

/-! ## GPU hybrid path (omnivanity-core/src/search.rs, run_gpu_hybrid)

The claims only concern the per-batch post-processing loop `for idx in
match_indices { .. }`: the GPU is an untrusted filter, so `match_indices`
is an arbitrary list of candidate indices; the loop skips out-of-range
indices, re-runs the CPU matcher on the flagged address string, and on
confirmation rebuilds the full record from the saved secret via
`self.chain.generate_from_bytes` (an arbitrary function here, since the
chain adapter is dynamic).  The first hit that also reconstructs is
returned. -/

/-- The body of `for idx in match_indices` in `run_gpu_hybrid`.  `total`
stands for `stats.total_keys()` at that instant. -/
def processGpuMatches (patterns : List Pattern) (addressStrings : List (List Char))
    (keys : List (List Nat)) (fromBytes : List Nat → Option GeneratedAddress)
    (patStr : List Char) (total : Nat) : List Nat → Option SearchResult
  | [] => none
  | idx :: rest =>
    if idx ≥ addressStrings.length then
      processGpuMatches patterns addressStrings keys fromBytes patStr total rest
    else
      let addressStr := addressStrings.getD idx []
      if (pmMatches patterns addressStr).isSome then
        match fromBytes (keys.getD idx []) with
        | some r => some ⟨r, patStr, total⟩
        | none => processGpuMatches patterns addressStrings keys fromBytes patStr total rest
      else processGpuMatches patterns addressStrings keys fromBytes patStr total rest

/-! ## Hash primitives (omnivanity-crypto/src/hash.rs)

The Rust code delegates to the `sha2`, `sha3` and `ripemd` crates; those
crates are modelled by executable reference implementations of the same
standard algorithms, operating on byte lists (`List Nat`, entries < 256). -/

/-- 2^32 truncation. -/
def m32 (n : Nat) : Nat := n % 4294967296

/-- 64-bit mask. -/
def mask64 : Nat := 18446744073709551615

/-- Rotate a 32-bit word left. -/
def rotl32 (x n : Nat) : Nat := ((x <<< n) ||| (x >>> (32 - n))) &&& 4294967295

/-- Rotate a 32-bit word right. -/
def rotr32 (x n : Nat) : Nat := ((x >>> n) ||| (x <<< (32 - n))) &&& 4294967295

/-- Rotate a 64-bit lane left. -/
def rotl64 (x n : Nat) : Nat := ((x <<< n) ||| (x >>> (64 - n))) &&& mask64

/-- Split a list into chunks of `n` (fuel-driven so that it reduces by
`decide`); callers pass `fuel ≥ l.length` and `n ≥ 1`. -/
def chunksF (n : Nat) : Nat → List α → List (List α)
  | 0, _ => []
  | _, [] => []
  | fuel + 1, l => l.take n :: chunksF n fuel (l.drop n)

/-- Big-endian bytes of a 32-bit word. -/
def be4 (w : Nat) : List Nat :=
  [(w >>> 24) &&& 255, (w >>> 16) &&& 255, (w >>> 8) &&& 255, w &&& 255]

/-- Little-endian bytes of a 32-bit word. -/
def le4 (w : Nat) : List Nat :=
  [w &&& 255, (w >>> 8) &&& 255, (w >>> 16) &&& 255, (w >>> 24) &&& 255]

/-- Little-endian bytes of a 64-bit lane. -/
def le8 (w : Nat) : List Nat :=
  (List.range 8).map fun i => (w >>> (8 * i)) &&& 255

/-- Read a big-endian 32-bit word from 4 bytes. -/
def beWord : List Nat → Nat
  | bs => bs.foldl (fun acc b => acc * 256 + b) 0

/-- Read a little-endian value from bytes. -/
def leNat (bs : List Nat) : Nat := bs.foldr (fun b acc => acc * 256 + b) 0

/-- Bit-by-bit integer `k`-th root: largest `r` with `r ^ k ≤ n`, built from
bit `b` downward. -/
def irootGo (k n : Nat) : Nat → Nat → Nat
  | 0, r => r
  | b + 1, r =>
    let c := r + (1 <<< b)
    if c ^ k ≤ n then irootGo k n b c else irootGo k n b r

/-- Integer `k`-th root of `n` (for the magnitudes used here). -/
def iroot (k n : Nat) : Nat := irootGo k n 40 0

/-- The first 64 primes, from which FIPS 180-4 derives the SHA-256
constants. -/
def shaPrimes : List Nat :=
  [2, 3, 5, 7, 11, 13, 17, 19, 23, 29, 31, 37, 41, 43, 47, 53, 59, 61, 67,
   71, 73, 79, 83, 89, 97, 101, 103, 107, 109, 113, 127, 131, 137, 139, 149,
   151, 157, 163, 167, 173, 179, 181, 191, 193, 197, 199, 211, 223, 227,
   229, 233, 239, 241, 251, 257, 263, 269, 271, 277, 281, 283, 293, 307, 311]

/-- First 32 bits of the fractional part of the square root of a prime
(the SHA-256 initial hash values, FIPS 180-4 §5.3.3). -/
def shaH0 (p : Nat) : Nat := iroot 2 (p <<< 64) &&& 4294967295

/-- SHA-256 round constants: first 32 bits of the fractional parts of the
cube roots of the first 64 primes (FIPS 180-4 §4.2.2). -/
def shaK : List Nat := shaPrimes.map fun p => iroot 3 (p <<< 96) &&& 4294967295

/-- SHA-256 message-schedule extension: grows the 16 block words to 64. -/
def shaSched (w : List Nat) : List Nat :=
  (List.range 48).foldl
    (fun ws i =>
      let a := ws.getD (i + 1) 0
      let b := ws.getD (i + 14) 0
      let s0 := rotr32 a 7 ^^^ rotr32 a 18 ^^^ (a >>> 3)
      let s1 := rotr32 b 17 ^^^ rotr32 b 19 ^^^ (b >>> 10)
      ws ++ [m32 (ws.getD i 0 + s0 + ws.getD (i + 9) 0 + s1)])
    w

/-- The eight-word chaining state of SHA-256. -/
structure H8 where
  a : Nat
  b : Nat
  c : Nat
  d : Nat
  e : Nat
  f : Nat
  g : Nat
  h : Nat
  deriving DecidableEq

/-- One SHA-256 round. -/
def shaRound (st : H8) (ki wi : Nat) : H8 :=
  let s1 := rotr32 st.e 6 ^^^ rotr32 st.e 11 ^^^ rotr32 st.e 25
  let ch := (st.e &&& st.f) ^^^ ((st.e ^^^ 4294967295) &&& st.g)
  let t1 := m32 (st.h + s1 + ch + ki + wi)
  let s0 := rotr32 st.a 2 ^^^ rotr32 st.a 13 ^^^ rotr32 st.a 22
  let mj := (st.a &&& st.b) ^^^ (st.a &&& st.c) ^^^ (st.b &&& st.c)
  let t2 := m32 (s0 + mj)
  ⟨m32 (t1 + t2), st.a, st.b, st.c, m32 (st.d + t1), st.e, st.f, st.g⟩

/-- Compress one 64-byte block into the chaining state. -/
def shaCompress (st : H8) (block : List Nat) : H8 :=
  let w := shaSched ((chunksF 4 64 block).map beWord)
  let fin :=
    ((shaK.zip w).foldl (fun s p => shaRound s p.1 p.2) st)
  ⟨m32 (st.a + fin.a), m32 (st.b + fin.b), m32 (st.c + fin.c), m32 (st.d + fin.d),
   m32 (st.e + fin.e), m32 (st.f + fin.f), m32 (st.g + fin.g), m32 (st.h + fin.h)⟩

/-- SHA-256 padding: `0x80`, zeros, 8-byte big-endian bit length. -/
def shaPad (msg : List Nat) : List Nat :=
  let zeros := (64 - (msg.length + 9) % 64) % 64
  msg ++ [128] ++ List.replicate zeros 0 ++
    ((List.range 8).reverse.map fun i => ((msg.length * 8) >>> (8 * i)) &&& 255)

/-- `sha256` from hash.rs (via the `sha2` crate): 32 digest bytes. -/
def sha256 (msg : List Nat) : List Nat :=
  let st := (chunksF 64 (shaPad msg).length (shaPad msg)).foldl shaCompress
    ⟨shaH0 2, shaH0 3, shaH0 5, shaH0 7, shaH0 11, shaH0 13, shaH0 17, shaH0 19⟩
  be4 st.a ++ be4 st.b ++ be4 st.c ++ be4 st.d ++ be4 st.e ++ be4 st.f ++ be4 st.g ++ be4 st.h

/-- `double_sha256` from hash.rs. -/
def dsha256 (msg : List Nat) : List Nat := sha256 (sha256 msg)

/-- Keccak-f[1600] ρ+π source indices (destination-indexed, flat `x + 5y`). -/
def keccakSrc : List Nat :=
  [0, 6, 12, 18, 24, 3, 9, 10, 16, 22, 1, 7, 13, 19, 20, 4, 5, 11, 17, 23, 2, 8, 14, 15, 21]

/-- Keccak-f[1600] ρ rotation amounts (destination-indexed). -/
def keccakRot : List Nat :=
  [0, 44, 43, 21, 14, 28, 20, 3, 45, 61, 1, 6, 25, 8, 18, 27, 36, 10, 15, 56, 62, 55, 39, 41, 2]

/-- Keccak-f[1600] round constants. -/
def keccakRC : List Nat :=
  [0x0000000000000001, 0x0000000000008082, 0x800000000000808a, 0x8000000080008000,
   0x000000000000808b, 0x0000000080000001, 0x8000000080008081, 0x8000000000008009,
   0x000000000000008a, 0x0000000000000088, 0x0000000080008009, 0x000000008000000a,
   0x000000008000808b, 0x800000000000008b, 0x8000000000008089, 0x8000000000008003,
   0x8000000000008002, 0x8000000000000080, 0x000000000000800a, 0x800000008000000a,
   0x8000000080008081, 0x8000000000008080, 0x0000000080000001, 0x8000000080008008]

/-- One Keccak-f round (state: 25 lanes, flat index `x + 5y`). -/
def keccakRound (st : List Nat) (rc : Nat) : List Nat :=
  let bc := (List.range 5).map fun x =>
    st.getD x 0 ^^^ st.getD (x + 5) 0 ^^^ st.getD (x + 10) 0 ^^^
      st.getD (x + 15) 0 ^^^ st.getD (x + 20) 0
  let d := (List.range 5).map fun x =>
    bc.getD ((x + 4) % 5) 0 ^^^ rotl64 (bc.getD ((x + 1) % 5) 0) 1
  let s1 := (List.range 25).map fun i => st.getD i 0 ^^^ d.getD (i % 5) 0
  let s2 := (List.range 25).map fun i => rotl64 (s1.getD (keccakSrc.getD i 0) 0) (keccakRot.getD i 0)
  let s3 := (List.range 25).map fun i =>
    let x := i % 5
    let base := i - x
    s2.getD i 0 ^^^ ((s2.getD (base + (x + 1) % 5) 0 ^^^ mask64) &&& s2.getD (base + (x + 2) % 5) 0)
  (List.range 25).map fun i => if i = 0 then s3.getD 0 0 ^^^ rc else s3.getD i 0

/-- The full Keccak-f[1600] permutation. -/
def keccakF (st : List Nat) : List Nat := keccakRC.foldl keccakRound st

/-- Keccak (pre-SHA-3) multi-rate padding with domain byte `0x01`. -/
def keccakPad (msg : List Nat) : List Nat :=
  let p := 136 - msg.length % 136
  if p = 1 then msg ++ [0x81] else msg ++ [0x01] ++ List.replicate (p - 2) 0 ++ [0x80]

/-- Absorb one 136-byte block into the state. -/
def keccakAbsorb (st : List Nat) (block : List Nat) : List Nat :=
  let lanes := (chunksF 8 136 block).map leNat
  keccakF ((List.range 25).map fun i =>
    if i < 17 then st.getD i 0 ^^^ lanes.getD i 0 else st.getD i 0)

/-- `keccak256` from hash.rs (via the `sha3` crate's `Keccak256`):
32 digest bytes. -/
def keccak256 (msg : List Nat) : List Nat :=
  let final := (chunksF 136 (keccakPad msg).length (keccakPad msg)).foldl keccakAbsorb
    (List.replicate 25 0)
  le8 (final.getD 0 0) ++ le8 (final.getD 1 0) ++ le8 (final.getD 2 0) ++ le8 (final.getD 3 0)

/-- RIPEMD-160 message-word selection, left line. -/
def rmdRL : List Nat :=
  [0, 1, 2, 3, 4, 5, 6, 7, 8, 9, 10, 11, 12, 13, 14, 15,
   7, 4, 13, 1, 10, 6, 15, 3, 12, 0, 9, 5, 2, 14, 11, 8,
   3, 10, 14, 4, 9, 15, 8, 1, 2, 7, 0, 6, 13, 11, 5, 12,
   1, 9, 11, 10, 0, 8, 12, 4, 13, 3, 7, 15, 14, 5, 6, 2,
   4, 0, 5, 9, 7, 12, 2, 10, 14, 1, 3, 8, 11, 6, 15, 13]

/-- RIPEMD-160 message-word selection, right line. -/
def rmdRR : List Nat :=
  [5, 14, 7, 0, 9, 2, 11, 4, 13, 6, 15, 8, 1, 10, 3, 12,
   6, 11, 3, 7, 0, 13, 5, 10, 14, 15, 8, 12, 4, 9, 1, 2,
   15, 5, 1, 3, 7, 14, 6, 9, 11, 8, 12, 2, 10, 0, 4, 13,
   8, 6, 4, 1, 3, 11, 15, 0, 5, 12, 2, 13, 9, 7, 10, 14,
   12, 15, 10, 4, 1, 5, 8, 7, 6, 2, 13, 14, 0, 3, 9, 11]

/-- RIPEMD-160 rotation amounts, left line. -/
def rmdSL : List Nat :=
  [11, 14, 15, 12, 5, 8, 7, 9, 11, 13, 14, 15, 6, 7, 9, 8,
   7, 6, 8, 13, 11, 9, 7, 15, 7, 12, 15, 9, 11, 7, 13, 12,
   11, 13, 6, 7, 14, 9, 13, 15, 14, 8, 13, 6, 5, 12, 7, 5,
   11, 12, 14, 15, 14, 15, 9, 8, 9, 14, 5, 6, 8, 6, 5, 12,
   9, 15, 5, 11, 6, 8, 13, 12, 5, 12, 13, 14, 11, 8, 5, 6]

/-- RIPEMD-160 rotation amounts, right line. -/
def rmdSR : List Nat :=
  [8, 9, 9, 11, 13, 15, 15, 5, 7, 7, 8, 11, 14, 14, 12, 6,
   9, 13, 15, 7, 12, 8, 9, 11, 7, 7, 12, 7, 6, 15, 13, 11,
   9, 7, 15, 11, 8, 6, 6, 14, 12, 13, 5, 14, 13, 13, 7, 5,
   15, 5, 8, 11, 14, 14, 6, 14, 6, 9, 12, 9, 12, 5, 15, 8,
   8, 5, 12, 9, 12, 5, 14, 6, 8, 13, 6, 5, 15, 13, 11, 11]

/-- RIPEMD-160 nonlinear functions, selected by round group. -/
def rmdF (j x y z : Nat) : Nat :=
  if j < 16 then x ^^^ y ^^^ z
  else if j < 32 then (x &&& y) ||| ((x ^^^ 4294967295) &&& z)
  else if j < 48 then (x ||| (y ^^^ 4294967295)) ^^^ z
  else if j < 64 then (x &&& z) ||| (y &&& (z ^^^ 4294967295))
  else x ^^^ (y ||| (z ^^^ 4294967295))

/-- RIPEMD-160 additive constants, left line (by round group). -/
def rmdKL (j : Nat) : Nat :=
  if j < 16 then 0 else if j < 32 then 0x5a827999 else if j < 48 then 0x6ed9eba1
  else if j < 64 then 0x8f1bbcdc else 0xa953fd4e

/-- RIPEMD-160 additive constants, right line (by round group). -/
def rmdKR (j : Nat) : Nat :=
  if j < 16 then 0x50a28be6 else if j < 32 then 0x5c4dd124 else if j < 48 then 0x6d703ef3
  else if j < 64 then 0x7a6d76e9 else 0

/-- One RIPEMD-160 line round: state `(a,b,c,d,e)`, function index `fj`,
message word `x`, constant `k`, shift `s`. -/
def rmdOp (st : Nat × Nat × Nat × Nat × Nat) (fj x k s : Nat) :
    Nat × Nat × Nat × Nat × Nat :=
  match st with
  | (a, b, c, d, e) =>
    let t := m32 (rotl32 (m32 (a + rmdF fj b c d + x + k)) s + e)
    (e, t, b, rotl32 c 10, d)

/-- Compress one 64-byte block (RIPEMD-160). -/
def rmdCompress (h : Nat × Nat × Nat × Nat × Nat) (block : List Nat) : Nat × Nat × Nat × Nat × Nat :=
  match h with
  | (h0, h1, h2, h3, h4) =>
    let x := (chunksF 4 64 block).map (fun c => leNat c)
    let left := (List.range 80).foldl
      (fun st j => rmdOp st j (x.getD (rmdRL.getD j 0) 0) (rmdKL j) (rmdSL.getD j 0))
      (h0, h1, h2, h3, h4)
    let right := (List.range 80).foldl
      (fun st j => rmdOp st (79 - j) (x.getD (rmdRR.getD j 0) 0) (rmdKR j) (rmdSR.getD j 0))
      (h0, h1, h2, h3, h4)
    match left, right with
    | (al, bl, cl, dl, el), (ar, br, cr, dr, er) =>
      (m32 (h1 + cl + dr), m32 (h2 + dl + er), m32 (h3 + el + ar),
       m32 (h4 + al + br), m32 (h0 + bl + cr))

/-- RIPEMD-160 padding: `0x80`, zeros, 8-byte little-endian bit length. -/
def rmdPad (msg : List Nat) : List Nat :=
  let zeros := (64 - (msg.length + 9) % 64) % 64
  msg ++ [128] ++ List.replicate zeros 0 ++
    ((List.range 8).map fun i => ((msg.length * 8) >>> (8 * i)) &&& 255)

/-- `ripemd160` from hash.rs (via the `ripemd` crate): 20 digest bytes,
little-endian words. -/
def ripemd160 (msg : List Nat) : List Nat :=
  let fin := (chunksF 64 (rmdPad msg).length (rmdPad msg)).foldl rmdCompress
    (0x67452301, 0xefcdab89, 0x98badcfe, 0x10325476, 0xc3d2e1f0)
  match fin with
  | (h0, h1, h2, h3, h4) => le4 h0 ++ le4 h1 ++ le4 h2 ++ le4 h3 ++ le4 h4

/-- `hash160` from hash.rs: RIPEMD-160 of SHA-256. -/
def hash160 (data : List Nat) : List Nat := ripemd160 (sha256 data)

/-! ## Encodings (omnivanity-crypto/src/encoding.rs)

`bs58` is an external crate; `b58Encode`/`b58Decode` below re-implement its
documented behaviour (leading `0x00` bytes become leading `1` characters,
the rest is big-endian base-58).  The `base58check_*` functions from
encoding.rs are embedded parametrically in the raw base-58 codec, so that
they can be studied both abstractly and at the concrete codec. -/

/-- The Bitcoin base-58 alphabet. -/
def b58Alphabet : List Char :=
  ['1', '2', '3', '4', '5', '6', '7', '8', '9', 'A', 'B', 'C', 'D', 'E', 'F',
   'G', 'H', 'J', 'K', 'L', 'M', 'N', 'P', 'Q', 'R', 'S', 'T', 'U', 'V', 'W',
   'X', 'Y', 'Z', 'a', 'b', 'c', 'd', 'e', 'f', 'g', 'h', 'i', 'j', 'k', 'm',
   'n', 'o', 'p', 'q', 'r', 's', 't', 'u', 'v', 'w', 'x', 'y', 'z']

/-- Big-endian bytes read as a natural number. -/
def beBytesToNat (bs : List Nat) : Nat := bs.foldl (fun acc b => acc * 256 + b) 0

/-- Base-`b` digits of `n`, most significant first (fuel-driven). -/
def baseDigits (b : Nat) : Nat → Nat → List Nat
  | 0, _ => []
  | _, 0 => []
  | fuel + 1, n => baseDigits b fuel (n / b) ++ [n % b]

/-- Model of `bs58::encode` (base58_encode from encoding.rs). -/
def b58Encode (data : List Nat) : List Char :=
  let zeros := (data.takeWhile (· == 0)).length
  let ds := baseDigits 58 (2 * data.length + 1) (beBytesToNat data)
  List.replicate zeros '1' ++ ds.map (fun d => b58Alphabet.getD d '1')

/-- Index of a character in the base-58 alphabet. -/
def b58Index (c : Char) : Option Nat := b58Alphabet.indexOf? c

/-- Model of `bs58::decode`: `none` on a character outside the alphabet. -/
def b58Decode (s : List Char) : Option (List Nat) :=
  let idxs := s.mapM b58Index
  idxs.map fun ds =>
    let zeros := (ds.takeWhile (· == 0)).length
    let n := ds.foldl (fun acc d => acc * 58 + d) 0
    List.replicate zeros 0 ++ baseDigits 256 (s.length + 1) n

/-- `EncodingError` from encoding.rs. -/
inductive EncodingError where
  | InvalidChecksum
  | InvalidCharacter
  | InvalidLength
  deriving DecidableEq

/-- `base58check_encode` from encoding.rs, parametric in the raw base-58
encoder (the `bs58` crate): version byte, payload, then the first 4 bytes
of `double_sha256(version ‖ payload)`. -/
def base58checkEncode (enc : List Nat → List Char) (version : Nat) (payload : List Nat) :
    List Char :=
  let data := version :: payload
  enc (data ++ (dsha256 data).take 4)

/-- `base58check_decode` from encoding.rs, parametric in the raw base-58
decoder: decode, require ≥ 5 bytes, split the 4 checksum bytes, recompute
and compare the checksum, split version from payload. -/
def base58checkDecode (dec : List Char → Option (List Nat)) (input : List Char) :
    Except EncodingError (Nat × List Nat) :=
  match dec input with
  | none => .error .InvalidCharacter
  | some data =>
    if data.length < 5 then .error .InvalidLength
    else
      let payloadWithVersion := data.take (data.length - 4)
      let checksum := data.drop (data.length - 4)
      if checksum = (dsha256 payloadWithVersion).take 4 then
        .ok (payloadWithVersion.headD 0, payloadWithVersion.tail)
      else .error .InvalidChecksum

/-- `wif_encode` from encoding.rs. -/
def wifEncode (enc : List Nat → List Char) (privateKey : List Nat)
    (compressed mainnet : Bool) : List Char :=
  let version := if mainnet then 0x80 else 0xef
  if compressed then base58checkEncode enc version (privateKey ++ [0x01])
  else base58checkEncode enc version privateKey

/-- Lowercase hex digit of a nibble: `0`–`9` then `a`–`f`. -/
def hexDigit (n : Nat) : Char :=
  if n < 10 then Char.ofNat (48 + n) else Char.ofNat (87 + n)

/-- Model of `hex::encode`: lowercase hex of a byte list. -/
def hexEncode (bytes : List Nat) : List Char :=
  bytes.flatMap fun b => [hexDigit ((b >>> 4) &&& 15), hexDigit (b &&& 15)]

/-- Nibble `i` of a digest, as read by the indexing loop of
`eip55_checksum`: high nibble of `hash[i/2]` for even `i`, low nibble for
odd `i`. -/
def nibbleAt (hash : List Nat) (i : Nat) : Nat :=
  if i % 2 = 0 then (hash.getD (i / 2) 0 >>> 4) &&& 15 else hash.getD (i / 2) 0 &&& 15

/-- `eip55_checksum` from encoding.rs, with the same accumulator-push
structure as the Rust `for` loop over `hex_addr.chars().enumerate()`. -/
def eip55Checksum (address : List Nat) : List Char :=
  let hexAddr := hexEncode address
  let hash := keccak256 (hexAddr.map Char.toNat)
  (hexAddr.enum).foldl
    (fun acc p =>
      acc ++ [if nibbleAt hash p.1 ≥ 8 then p.2.toUpper else p.2])
    ['0', 'x']

/-! ## Chain adapters (omnivanity-chains/src/{bitcoin,ethereum,solana}.rs)

The elliptic-curve crates (`k256`, `ed25519-dalek`) are external; they are
modelled by an explicit implementation record.  A `Secp256k1Keypair` is
identified with its 32 secret bytes: the crate derives the public key
deterministically from them, which the record's functions represent.
`skValid` models `SecretKey::from_bytes` succeeding (scalar in `[1, n)`);
`SecretKey::random` only ever produces valid scalars. -/

/-- The deterministic key-derivation interface of the `k256` crate. -/
structure SecpImpl where
  skValid : List Nat → Bool
  pubCompressed : List Nat → List Nat
  pubUncompressed : List Nat → List Nat

/-- `Secp256k1Keypair::from_bytes` (succeeds iff the scalar is valid). -/
def secpFromBytes (impl : SecpImpl) (bytes : List Nat) : Option (List Nat) :=
  if impl.skValid bytes then some bytes else none

/-- Rust `str::replace("bc1q", "bc1p")` as used by the Bitcoin P2TR arm. -/
def bc1qToP : Nat → List Char → List Char
  | 0, s => s
  | fuel + 1, s =>
    match s with
    | [] => []
    | c :: rest =>
      if isPre ['b', 'c', '1', 'q'] (c :: rest) then
        'b' :: 'c' :: '1' :: 'p' :: bc1qToP fuel (rest.drop 3)
      else c :: bc1qToP fuel rest

/-- `Bitcoin::generate_from_keypair`.  `b58` models the `bs58` encoder and
`bech` the `bech32_encode_v0("bc", ·)` call (with its `unwrap_or_default`
already applied). -/
def btcGenFromKeypair (impl : SecpImpl) (b58 : List Nat → List Char)
    (bech : List Nat → List Char) (sk : List Nat) (ty : AddressType) : GeneratedAddress :=
  let pubC := impl.pubCompressed sk
  let address :=
    match ty with
    | .P2pkh => base58checkEncode b58 0 (hash160 pubC)
    | .P2wpkh => bech (hash160 pubC)
    | .P2tr => bc1qToP (bech (hash160 pubC)).length (bech (hash160 pubC))
    | _ => []
  ⟨address, hexEncode sk, wifEncode b58 sk true true, hexEncode pubC,
   String.toList "BTC", ty⟩

/-- `Bitcoin::generate_from_bytes`. -/
def btcGenerateFromBytes (impl : SecpImpl) (b58 bech : List Nat → List Char)
    (privateKey : List Nat) (ty : AddressType) : Option GeneratedAddress :=
  if privateKey.length ≠ 32 then none
  else
    match secpFromBytes impl privateKey with
    | none => none
    | some kp => some (btcGenFromKeypair impl b58 bech kp ty)

/-- Case folding applied to both sides before matching, as dictated by the
`case_insensitive` flag. -/
def caseFold (ci : Bool) (s : List Char) : List Char := if ci then lowerStr s else s

/-- The multi-character visible prefixes listed by the spec, in the order
given there. -/
def visibleHeads : List (List Char) :=
  [['0', 'x'], ['b', 'c', '1', 'q'], ['b', 'c', '1', 'p'], ['l', 't', 'c', '1', 'q'], ['t', '1']]

/-- The single-character Base58 version characters listed by the spec. -/
def versionChars : List Char := ['1', '3', 'L', 'M', 'D']

/-- Spec-side stripping: remove exactly one known visible prefix — the
first of the listed heads that matches, else a single listed version
character when the address is longer than one character. -/
def stripSpec (addr : List Char) : List Char :=
  match visibleHeads.find? (fun h => isPre h addr) with
  | some h => addr.drop h.length
  | none =>
    if 1 < addr.length ∧ addr.headD ' ' ∈ versionChars then addr.drop 1 else addr

/-- Spec-side character admissibility for pattern validation: the
character must be present in the alphabet, case-folded on both sides when
`case_insensitive` is set. -/
def charOk (ci : Bool) (alpha : List Char) (c : Char) : Bool :=
  if ci then (lowerStr alpha).contains c.toLower else alpha.contains c

/-- Spec-side description of `Pattern::validate`: empty patterns are
rejected, else the first character missing from the (possibly case-folded)
alphabet is reported, else success. -/
def validateSpec (p : Pattern) (alpha : List Char) : Except PatternError Unit :=
  if p.value = [] then .error .EmptyPattern
  else
    match p.value.find? (fun c => ! charOk p.caseInsensitive alpha c) with
    | some c => .error (.InvalidCharacter c alpha)
    | none => .ok ()

/-- Spec-side description of EIP-55: `0x`, then the lowercase hex where
digit `i` is uppercased exactly when nibble `i` of the keccak of the
lowercase hex string is at least 8. -/
def eip55Spec (address : List Nat) : List Char :=
  let hexAddr := hexEncode address
  let hash := keccak256 (hexAddr.map Char.toNat)
  '0' :: 'x' :: (hexAddr.enum.map fun p => if nibbleAt hash p.1 ≥ 8 then p.2.toUpper else p.2)

/-! ## Search-machine derived notions (for the claims about `run_cpu`) -/

/-- Steps a worker still owes inside its current loop iteration. -/
def phaseWeight (batch : Nat) : WPhase → Nat
  | .top => batch + 2
  | .inBatch k => k + 1
  | .done => 0

/-- Termination measure: remaining counter headroom (weighted) plus the
workers' remaining loop obligations. -/
def measureOf (cfg : SearchConfig) (numThreads : Nat) (g : GState) : Nat :=
  3 * ((cfg.maxAttempts - 1 + numThreads * cfg.batchSize) - g.keysTested) +
    (g.workers.map fun w => phaseWeight cfg.batchSize w.phase).sum

/-- A schedule that, as long as some worker has not returned, picks a
worker that has not returned (every OS schedule that lets the pool finish
is of this kind). -/
def goodSched (cfg : SearchConfig) (patterns : List Pattern)
    (gen : Nat → Nat → GeneratedAddress) (sched : Nat → Nat × Bool)
    (numThreads : Nat) : Prop :=
  ∀ i, ¬ allDone (runSys cfg patterns gen sched numThreads i) →
    ∃ w, (runSys cfg patterns gen sched numThreads i).workers.get? (sched i).1 = some w ∧
      w.phase ≠ WPhase.done

/-! ## Concrete instances used by counterexamples and witnesses -/

/-- The 32-byte secp256k1 scalar 1. -/
def skOne : List Nat := List.replicate 31 0 ++ [1]

/-- SEC1-compressed encoding of the secp256k1 generator point (the public
key of scalar 1): `02 ‖ x(G)`. -/
def genPointCompressed : List Nat :=
  [0x02, 0x79, 0xbe, 0x66, 0x7e, 0xf9, 0xdc, 0xbb, 0xac, 0x55, 0xa0, 0x62, 0x95,
   0xce, 0x87, 0x0b, 0x07, 0x02, 0x9b, 0xfc, 0xdb, 0x2d, 0xce, 0x28, 0xd9, 0x59,
   0xf2, 0x81, 0x5b, 0x16, 0xf8, 0x17, 0x98]

/-- A generated record whose address is the single character `z`. -/
def addrZ : GeneratedAddress := ⟨['z'], [], [], [], [], .Evm⟩

/-- A generated record whose address is the single character `a`. -/
def addrA : GeneratedAddress := ⟨['a'], [], [], [], [], .Evm⟩

/-- A single case-sensitive `Contains "a"` pattern. -/
def patsA : List Pattern := [⟨['a'], .Contains, false⟩]

/-- `batch_size = 0`, `max_attempts = 1`, no time bound. -/
def cfgB0 : SearchConfig := ⟨0, 1, 0⟩

/-- `batch_size = 1`, `max_attempts = 1`, no time bound. -/
def cfgB1 : SearchConfig := ⟨1, 1, 0⟩

/-- The constant schedule driving worker 0 with the clock never up. -/
def sched0 : Nat → Nat × Bool := fun _ => (0, false)

/-- Whether a worker is inside the batch loop. -/
def isInBatch (w : WState) : Bool :=
  match w.phase with
  | .inBatch _ => true
  | _ => false

/-- Workers waiting at the `while` head have `local_count = 0`. -/
def TopZero (g : GState) : Prop :=
  ∀ w ∈ g.workers, w.phase = WPhase.top → w.localCount = 0

/-- The counter equals `batch_size` times the number of completed batches. -/
def KeysByBatch (cfg : SearchConfig) (g : GState) : Prop :=
  g.keysTested = cfg.batchSize * g.completedBatches

/-- Counter headroom: the counter plus all in-flight batches stays below
`max_attempts + numThreads · batch_size`. -/
def UpperInv (cfg : SearchConfig) (numThreads : Nat) (g : GState) : Prop :=
  g.workers.length = numThreads ∧
  g.keysTested + cfg.batchSize * (g.workers.countP isInBatch) + 1 ≤
    cfg.maxAttempts + numThreads * cfg.batchSize

/-- In a matchless, time-unbounded run: `running` is cleared only by the
`max_attempts` bound, and a worker returns only after `running` clears. -/
def StopInv (cfg : SearchConfig) (g : GState) : Prop :=
  (g.running = false → cfg.maxAttempts ≤ g.keysTested) ∧
  (g.running = true → ∀ w ∈ g.workers, w.phase ≠ WPhase.done)

/-! ## Helper lemmas -/

theorem hasSub_nil : ∀ s : List Char, hasSub s [] = true
  | [] => rfl
  | _ :: t => by simp [hasSub, isPre, hasSub_nil t]

theorem isPre_nil (s : List Char) : isPre [] s = true := rfl

theorem isPre_single (c : Char) (x : Char) (t : List Char) :
    isPre [c] (x :: t) = (c == x) := by
  simp [isPre]

theorem validateChars_eq_find (ci : Bool) (alpha : List Char) :
    ∀ l : List Char,
      validateChars ci alpha l =
        match l.find? (fun c => ! charOk ci alpha c) with
        | some c => .error (.InvalidCharacter c alpha)
        | none => .ok ()
  | [] => rfl
  | c :: rest => by
    have hok : validateChars ci alpha (c :: rest) =
        if charOk ci alpha c then validateChars ci alpha rest
        else .error (.InvalidCharacter c alpha) := by
      cases ci <;> rfl
    rw [hok]
    cases h : charOk ci alpha c with
    | true =>
      rw [if_pos rfl, List.find?_cons_of_neg _ (by simp [h]),
        validateChars_eq_find ci alpha rest]
    | false =>
      rw [if_neg (by simp), List.find?_cons_of_pos _ (by simp [h])]

theorem stripVisible_eq_stripSpec (a : List Char) : stripVisible a = stripSpec a := by
  unfold stripVisible stripSpec visibleHeads
  cases h0 : isPre ['0', 'x'] a <;>
    cases h1 : isPre ['b', 'c', '1', 'q'] a <;>
    cases h2 : isPre ['b', 'c', '1', 'p'] a <;>
    cases h3 : isPre ['l', 't', 'c', '1', 'q'] a <;>
    cases h4 : isPre ['t', '1'] a <;>
    simp only [h0, h1, h2, h3, h4, List.find?, Bool.false_or, Bool.true_or,
      Bool.or_false, Bool.or_true] <;>
    try rfl
  rcases a with _ | ⟨c, _ | ⟨d, t⟩⟩
  · rfl
  · simp [versionChars]
  · have hlen : 1 < (c :: d :: t).length := by simp
    by_cases hm : c ∈ versionChars
    · have hhead : (c :: d :: t).headD ' ' ∈ versionChars := by simpa using hm
      rw [if_pos (⟨hlen, hhead⟩ : _ ∧ _)]
      have hbool : (isPre ['1'] (c :: d :: t) || isPre ['3'] (c :: d :: t) ||
          isPre ['L'] (c :: d :: t) || isPre ['M'] (c :: d :: t) ||
          isPre ['D'] (c :: d :: t)) = true := by
        fin_cases hm <;> simp [isPre]
      simp [hbool, hlen]
    · have hml : ¬ (c ∈ versionChars) := hm
      simp only [versionChars, List.mem_cons, List.not_mem_nil, or_false, not_or] at hm
      obtain ⟨n1, n3, nL, nM, nD⟩ := hm
      have hbool : (isPre ['1'] (c :: d :: t) || isPre ['3'] (c :: d :: t) ||
          isPre ['L'] (c :: d :: t) || isPre ['M'] (c :: d :: t) ||
          isPre ['D'] (c :: d :: t)) = false := by
        simp [isPre_single, beq_eq_false_iff_ne.mpr (Ne.symm n1),
          beq_eq_false_iff_ne.mpr (Ne.symm n3), beq_eq_false_iff_ne.mpr (Ne.symm nL),
          beq_eq_false_iff_ne.mpr (Ne.symm nM), beq_eq_false_iff_ne.mpr (Ne.symm nD)]
      simp [hbool, hml]

set_option maxRecDepth 1000000

/-! ## Claim theorems -/

/-- C9: `PatternMatcher::matches` itself never checks pattern non-emptiness:
for every address string and every pattern kind with either case flag, a
pattern whose value is the empty string matches (`matches` returns `Some`,
namely index 0). -/
theorem c9_empty_pattern_matches (address : List Char) (pt : PatternType) (ci : Bool) :
    pmMatches [⟨[], pt, ci⟩] address = some 0 := by
  have hcheck : checkPattern address ⟨[], pt, ci⟩ = true := by
    cases pt <;> cases ci <;>
      simp [checkPattern, lowerStr, isSuf, isPre, hasSub_nil]
  simp [pmMatches, matchesFrom, hcheck]

/-- C4: for every address and `Prefix` pattern, `check_pattern` strips
exactly one known visible prefix from the (case-folded) address — one of the
heads `0x`, `bc1q`, `bc1p`, `ltc1q`, `t1`, or a single leading `1`, `3`,
`L`, `M`, `D` when the address is longer than one character — before the
starts-with test, while `Suffix` and `Contains` patterns are tested against
the raw unstripped address; with both case flags. -/
theorem c4_strip_behaviour (address value : List Char) (ci : Bool) :
    checkPattern address ⟨value, .Prefix, ci⟩ =
      isPre (caseFold ci value) (stripSpec (caseFold ci address)) ∧
    checkPattern address ⟨value, .Suffix, ci⟩ =
      isSuf (caseFold ci value) (caseFold ci address) ∧
    checkPattern address ⟨value, .Contains, ci⟩ =
      hasSub (caseFold ci address) (caseFold ci value) := by
  refine ⟨?_, ?_, ?_⟩ <;>
    cases ci <;>
    simp [checkPattern, caseFold, stripVisible_eq_stripSpec]

/-- C8: `Pattern::validate` rejects the empty pattern with `EmptyPattern`,
otherwise reports `InvalidCharacter` naming the first character of the value
absent from the alphabet (lowercasing both sides when `case_insensitive`),
and succeeds exactly when every character is present in the (possibly
case-folded) alphabet. -/
theorem c8_validate_behaviour (p : Pattern) (alpha : List Char) :
    p.validate alpha = validateSpec p alpha ∧
    (p.validate alpha = .ok () ↔
      p.value ≠ [] ∧ ∀ c ∈ p.value, charOk p.caseInsensitive alpha c = true) := by
  have heq : p.validate alpha = validateSpec p alpha := by
    unfold Pattern.validate validateSpec
    cases hv : p.value with
    | nil => simp
    | cons c rest =>
      simp only [List.isEmpty_cons, if_false, Bool.false_eq_true, reduceCtorEq, ite_false]
      rw [validateChars_eq_find]
  refine ⟨heq, ?_⟩
  rw [heq]
  unfold validateSpec
  cases hv : p.value with
  | nil => simp
  | cons c rest =>
    simp only [reduceCtorEq, ite_false, ne_eq, not_false_iff, true_and, if_neg]
    cases hf : (c :: rest).find? (fun x => ! charOk p.caseInsensitive alpha x) with
    | some d =>
      simp only []
      constructor
      · intro h; cases h
      · intro hall
        have hd := List.find?_some hf
        have hmem := List.mem_of_find?_eq_some hf
        rw [hall d hmem] at hd
        cases hd
    | none =>
      simp only []
      constructor
      · intro _
        intro x hx
        have := List.find?_eq_none.mp hf x hx
        simpa using this
      · intro _; trivial

theorem sha256_length (m : List Nat) : (sha256 m).length = 32 := by
  simp [sha256, be4]

theorem dsha256_length (m : List Nat) : (dsha256 m).length = 32 := by
  simp [dsha256, sha256_length]

theorem take_checksum_left (l c : List Nat) (hc : c.length = 4) :
    (l ++ c).take ((l ++ c).length - 4) = l := by
  rw [List.length_append, hc]
  simp [List.take_left l c]

theorem drop_checksum_left (l c : List Nat) (hc : c.length = 4) :
    (l ++ c).drop ((l ++ c).length - 4) = c := by
  rw [List.length_append, hc]
  simp [List.drop_left l c]

/-- C5: for every version byte and payload, decoding the Base58Check
encoding succeeds and returns exactly the version and payload, for any raw
base-58 codec (the external `bs58` crate) that round-trips on the encoded
byte string. -/
theorem c5_base58check_roundtrip (enc : List Nat → List Char)
    (dec : List Char → Option (List Nat)) (v : Nat) (p : List Nat)
    (hv : v < 256) (hp : ∀ b ∈ p, b < 256)
    (hrt : dec (enc ((v :: p) ++ (dsha256 (v :: p)).take 4)) =
      some ((v :: p) ++ (dsha256 (v :: p)).take 4)) :
    base58checkDecode dec (base58checkEncode enc v p) = .ok (v, p) := by
  have hc4 : ((dsha256 (v :: p)).take 4).length = 4 := by
    rw [List.length_take, dsha256_length]
    decide
  have henc : base58checkEncode enc v p =
      enc ((v :: p) ++ (dsha256 (v :: p)).take 4) := rfl
  have hlen : ((v :: p) ++ (dsha256 (v :: p)).take 4).length = p.length + 5 := by
    simp [List.length_append, hc4]
  unfold base58checkDecode
  rw [henc, hrt]
  simp only []
  rw [if_neg (by rw [hlen]; omega)]
  rw [take_checksum_left _ _ hc4, drop_checksum_left _ _ hc4]
  rw [if_pos rfl]
  rfl

/-- C5 witness: the concrete codec model of `bs58` on version byte 0 and
payload `[1, 2, 3]`. -/
theorem c5_base58check_roundtrip_witness :
    base58checkDecode b58Decode (base58checkEncode b58Encode 0 [1, 2, 3]) = .ok (0, [1, 2, 3]) :=
  c5_base58check_roundtrip b58Encode b58Decode 0 [1, 2, 3] (by decide)
    (by decide) (by decide)

theorem foldl_push_eq_map {α β : Type} (f : α → β) (l : List α) :
    ∀ init : List β, l.foldl (fun acc x => acc ++ [f x]) init = init ++ l.map f := by
  induction l with
  | nil => intro init; simp
  | cons a t ih => intro init; simp [ih]

/-- C6: `eip55_checksum` returns `0x` followed by the lowercase hex of the
address in which hex digit `i` is uppercased exactly when nibble `i` of the
keccak-256 of the lowercase hex string is at least 8; and on the byte string
`5aaeb6053f3e94c9b9a09f33669435e7ef1beaed` it returns the EIP-55 vector
`0x5aAeb6053F3E94C9b9A09f33669435E7Ef1BeAed`. -/
theorem c6_eip55_behaviour :
    (∀ address : List Nat, eip55Checksum address = eip55Spec address) ∧
    eip55Checksum [0x5a, 0xae, 0xb6, 0x05, 0x3f, 0x3e, 0x94, 0xc9, 0xb9, 0xa0,
        0x9f, 0x33, 0x66, 0x94, 0x35, 0xe7, 0xef, 0x1b, 0xea, 0xed] =
      String.toList "0x5aAeb6053F3E94C9b9A09f33669435E7Ef1BeAed" := by
  constructor
  · intro address
    unfold eip55Checksum eip55Spec
    rw [foldl_push_eq_map]
    rfl
  · decide

/-- C7: for the secp256k1 private key 1 (whose public key is the curve
generator, here supplied as the standard compressed constant), the Bitcoin
adapter at P2PKH returns the known Base58Check address and the known WIF
secret, both computed through the real HASH160 / double-SHA-256 / base-58
pipeline. -/
theorem c7_known_vector (secp : SecpImpl) (bech : List Nat → List Char)
    (hvalid : secp.skValid skOne = true)
    (hpub : secp.pubCompressed skOne = genPointCompressed) :
    ∃ r, btcGenerateFromBytes secp b58Encode bech skOne .P2pkh = some r ∧
      r.address = String.toList "1BgGZ9tcN4rm9KBzDn7KprQz87SZ26SAMH" ∧
      r.privateKeyNative =
        String.toList "KwDiBf89QgGbjEhKnhXJuH7LrciVrZi3qYjgd9M7rFU73sVHnoWn" := by
  have h32 : skOne.length = 32 := by decide
  refine ⟨btcGenFromKeypair secp b58Encode bech skOne .P2pkh, ?_, ?_, ?_⟩
  · simp [btcGenerateFromBytes, secpFromBytes, h32, hvalid]
  · simp only [btcGenFromKeypair, hpub]
    decide
  · simp only [btcGenFromKeypair]
    decide

/-- C7 witness at a concrete implementation record. -/
theorem c7_known_vector_witness :
    ∃ r, btcGenerateFromBytes ⟨fun _ => true, fun _ => genPointCompressed, fun _ => []⟩
        b58Encode (fun _ => []) skOne .P2pkh = some r ∧
      r.address = String.toList "1BgGZ9tcN4rm9KBzDn7KprQz87SZ26SAMH" ∧
      r.privateKeyNative =
        String.toList "KwDiBf89QgGbjEhKnhXJuH7LrciVrZi3qYjgd9M7rFU73sVHnoWn" :=
  c7_known_vector ⟨fun _ => true, fun _ => genPointCompressed, fun _ => []⟩
    (fun _ => []) rfl rfl

/-! ## Search-machine lemmas -/

theorem workerStep_spec (cfg : SearchConfig) (patterns : List Pattern)
    (genW : Nat → GeneratedAddress) (timeUp : Bool) (g : GState) (w : WState) :
    (w.phase = WPhase.done ∧
      workerStep cfg patterns genW timeUp g w = (g, w)) ∨
    (w.phase = WPhase.top ∧ g.running = false ∧
      workerStep cfg patterns genW timeUp g w =
        ({ g with keysTested := g.keysTested + w.localCount },
         { w with phase := WPhase.done })) ∨
    (w.phase = WPhase.top ∧ g.running = true ∧
      cfg.maxAttempts > 0 ∧ g.keysTested ≥ cfg.maxAttempts ∧
      workerStep cfg patterns genW timeUp g w =
        ({ g with running := false, keysTested := g.keysTested + w.localCount },
         { w with phase := WPhase.done })) ∨
    (w.phase = WPhase.top ∧ g.running = true ∧
      ¬ (cfg.maxAttempts > 0 ∧ g.keysTested ≥ cfg.maxAttempts) ∧
      cfg.maxTimeSecs > 0 ∧ timeUp = true ∧
      workerStep cfg patterns genW timeUp g w =
        ({ g with running := false, keysTested := g.keysTested + w.localCount },
         { w with phase := WPhase.done })) ∨
    (w.phase = WPhase.top ∧ g.running = true ∧
      ¬ (cfg.maxAttempts > 0 ∧ g.keysTested ≥ cfg.maxAttempts) ∧
      workerStep cfg patterns genW timeUp g w =
        (g, { w with phase := WPhase.inBatch cfg.batchSize })) ∨
    (∃ k, w.phase = WPhase.inBatch (k + 1) ∧
      (pmMatches patterns (genW w.pos).address).isSome = true ∧
      workerStep cfg patterns genW timeUp g w =
        ({ g with slot := if g.slot.isNone then some (genW w.pos) else g.slot,
                  found := true, running := false },
         { w with phase := WPhase.done, pos := w.pos + 1 })) ∨
    (∃ k, w.phase = WPhase.inBatch (k + 1) ∧
      (pmMatches patterns (genW w.pos).address).isSome = false ∧
      workerStep cfg patterns genW timeUp g w =
        (g, { w with phase := WPhase.inBatch k, pos := w.pos + 1,
                     localCount := w.localCount + 1 })) ∨
    (w.phase = WPhase.inBatch 0 ∧
      workerStep cfg patterns genW timeUp g w =
        ({ g with keysTested := g.keysTested + cfg.batchSize,
                  completedBatches := g.completedBatches + 1 },
         { w with phase := WPhase.top, localCount := 0 })) := by
  unfold workerStep
  cases hph : w.phase with
  | done => exact Or.inl ⟨rfl, rfl⟩
  | top =>
    by_cases hr : g.running = true
    · by_cases hmax : (cfg.maxAttempts > 0 && decide (g.keysTested ≥ cfg.maxAttempts)) = true
      · refine Or.inr (Or.inr (Or.inl ⟨rfl, hr, ?_, ?_, ?_⟩))
        · simpa using (Bool.and_eq_true_iff.mp hmax).1
        · simpa using (Bool.and_eq_true_iff.mp hmax).2
        · simp [hr, hmax]
      · by_cases htime : (cfg.maxTimeSecs > 0 && timeUp) = true
        · refine Or.inr (Or.inr (Or.inr (Or.inl ⟨rfl, hr, ?_, ?_, ?_, ?_⟩)))
          · intro hcon
            exact hmax (by simp [hcon.1, hcon.2])
          · simpa using (Bool.and_eq_true_iff.mp htime).1
          · simpa using (Bool.and_eq_true_iff.mp htime).2
          · simp [hr, hmax, htime]
        · refine Or.inr (Or.inr (Or.inr (Or.inr (Or.inl ⟨rfl, hr, ?_, ?_⟩))))
          · intro hcon
            exact hmax (by simp [hcon.1, hcon.2])
          · simp [hr, hmax, htime]
    · have hr' : g.running = false := by simpa using hr
      refine Or.inr (Or.inl ⟨rfl, hr', ?_⟩)
      simp [hr']
  | inBatch k =>
    cases k with
    | zero => exact Or.inr (Or.inr (Or.inr (Or.inr (Or.inr (Or.inr (Or.inr ⟨rfl, rfl⟩))))))
    | succ k' =>
      by_cases hm : (pmMatches patterns (genW w.pos).address).isSome = true
      · exact Or.inr (Or.inr (Or.inr (Or.inr (Or.inr (Or.inl ⟨k', rfl, hm, by simp [hm]⟩)))))
      · refine Or.inr (Or.inr (Or.inr (Or.inr (Or.inr (Or.inr (Or.inl
          ⟨k', rfl, by simpa using hm, by simp [hm]⟩))))))


theorem countP_set_balance {α : Type} (p : α → Bool) :
    ∀ (l : List α) (i : Nat) (w w' : α), l.get? i = some w →
      (l.set i w').countP p + (if p w then 1 else 0) =
        l.countP p + (if p w' then 1 else 0)
  | [], i, w, w', h => by simp at h
  | a :: t, 0, w, w', h => by
    simp only [List.get?] at h
    cases h
    simp only [List.set, List.countP_cons]
    omega
  | a :: t, i + 1, w, w', h => by
    simp only [List.get?] at h
    have ih := countP_set_balance p t i w w' h
    simp only [List.set, List.countP_cons]
    omega

theorem sum_map_set {α : Type} (f : α → Nat) :
    ∀ (l : List α) (i : Nat) (w w' : α), l.get? i = some w →
      ((l.set i w').map f).sum + f w = (l.map f).sum + f w'
  | [], i, w, w', h => by simp at h
  | a :: t, 0, w, w', h => by
    simp only [List.get?] at h
    cases h
    simp only [List.set, List.map_cons, List.sum_cons]
    omega
  | a :: t, i + 1, w, w', h => by
    simp only [List.get?] at h
    have ih := sum_map_set f t i w w' h
    simp only [List.set, List.map_cons, List.sum_cons]
    omega


theorem topKeys_step (cfg : SearchConfig) (patterns : List Pattern)
    (gen : Nat → Nat → GeneratedAddress) (g : GState) (c : Nat × Bool)
    (htz : TopZero g) (hkb : KeysByBatch cfg g) :
    TopZero (stepSys cfg patterns gen g c) ∧
      KeysByBatch cfg (stepSys cfg patterns gen g c) := by
  unfold stepSys
  cases hw : g.workers.get? c.1 with
  | none => exact ⟨htz, hkb⟩
  | some w =>
    have hwmem := List.get?_mem hw
    have hkb' : g.keysTested = cfg.batchSize * g.completedBatches := hkb
    have hmemtz : ∀ nw : WState, (nw.phase = WPhase.top → nw.localCount = 0) →
        ∀ u ∈ g.workers.set c.1 nw, u.phase = WPhase.top → u.localCount = 0 := by
      intro nw hnw u hu ht
      rcases List.mem_or_eq_of_mem_set hu with hold | heq
      · exact htz u hold ht
      · subst heq; exact hnw ht
    simp only []
    rcases workerStep_spec cfg patterns (gen c.1) c.2 g w with
      ⟨hph, heq⟩ | ⟨hph, hr, heq⟩ | ⟨hph, hr, hN0, hge, heq⟩ |
      ⟨hph, hr, hnmax, hT0, htu, heq⟩ | ⟨hph, hr, hnmax, heq⟩ |
      ⟨k, hph, hm, heq⟩ | ⟨k, hph, hm, heq⟩ | ⟨hph, heq⟩ <;>
      rw [heq] <;> simp only [] <;>
      refine ⟨hmemtz _ ?_, ?_⟩
    · exact fun ht => htz w hwmem ht
    · exact hkb'
    · intro ht; simp at ht
    · show g.keysTested + w.localCount = cfg.batchSize * g.completedBatches
      rw [htz w hwmem hph, hkb', Nat.add_zero]
    · intro ht; simp at ht
    · show g.keysTested + w.localCount = cfg.batchSize * g.completedBatches
      rw [htz w hwmem hph, hkb', Nat.add_zero]
    · intro ht; simp at ht
    · show g.keysTested + w.localCount = cfg.batchSize * g.completedBatches
      rw [htz w hwmem hph, hkb', Nat.add_zero]
    · intro ht; simp at ht
    · exact hkb'
    · intro ht; simp at ht
    · exact hkb'
    · intro ht; simp at ht
    · exact hkb'
    · intro _; rfl
    · show g.keysTested + cfg.batchSize = cfg.batchSize * (g.completedBatches + 1)
      rw [hkb']; ring


theorem length_step (cfg : SearchConfig) (patterns : List Pattern)
    (gen : Nat → Nat → GeneratedAddress) (g : GState) (c : Nat × Bool) :
    (stepSys cfg patterns gen g c).workers.length = g.workers.length := by
  unfold stepSys
  cases hw : g.workers.get? c.1 with
  | none => rfl
  | some w => simp [List.length_set]

theorem countP_pos_of_mem {α : Type} (p : α → Bool) (l : List α) (w : α)
    (hm : w ∈ l) (hp : p w = true) : 0 < l.countP p :=
  List.countP_pos.mpr ⟨w, hm, hp⟩

theorem countP_lt_of_mem {α : Type} (p : α → Bool) (l : List α) (w : α)
    (hm : w ∈ l) (hp : p w = false) : l.countP p < l.length := by
  have hsplit := List.length_eq_countP_add_countP (l := l) (p := p)
  have hpos : 0 < l.countP (fun a => decide ¬ (p a = true)) :=
    List.countP_pos.mpr ⟨w, hm, by simp [hp]⟩
  omega

theorem allDone_step (cfg : SearchConfig) (patterns : List Pattern)
    (gen : Nat → Nat → GeneratedAddress) (g : GState) (c : Nat × Bool)
    (h : allDone g) : allDone (stepSys cfg patterns gen g c) := by
  unfold stepSys
  cases hw : g.workers.get? c.1 with
  | none => exact h
  | some w =>
    have hd := h w (List.get?_mem hw)
    simp only []
    rcases workerStep_spec cfg patterns (gen c.1) c.2 g w with
      ⟨hph, heq⟩ | ⟨hph, hr, heq⟩ | ⟨hph, hr, hN0, hge, heq⟩ |
      ⟨hph, hr, hnmax, hT0, htu, heq⟩ | ⟨hph, hr, hnmax, heq⟩ |
      ⟨k, hph, hm, heq⟩ | ⟨k, hph, hm, heq⟩ | ⟨hph, heq⟩
    · rw [heq]
      intro u hu
      rcases List.mem_or_eq_of_mem_set hu with hold | hnew
      · exact h u hold
      · subst hnew; exact hd
    all_goals { rw [hd] at hph; cases hph }

theorem stop_step (cfg : SearchConfig) (patterns : List Pattern)
    (gen : Nat → Nat → GeneratedAddress) (g : GState) (c : Nat × Bool)
    (hT : cfg.maxTimeSecs = 0)
    (hnm : ∀ wi i, pmMatches patterns (gen wi i).address = none)
    (hsi : StopInv cfg g) : StopInv cfg (stepSys cfg patterns gen g c) := by
  obtain ⟨h1, h2⟩ := hsi
  unfold stepSys
  cases hw : g.workers.get? c.1 with
  | none => exact ⟨h1, h2⟩
  | some w =>
    have hwmem := List.get?_mem hw
    simp only []
    have hmem2 : ∀ nw : WState, nw.phase ≠ WPhase.done →
        (∀ u ∈ g.workers, u.phase ≠ WPhase.done) →
        ∀ u ∈ g.workers.set c.1 nw, u.phase ≠ WPhase.done := by
      intro nw hnw hall u hu
      rcases List.mem_or_eq_of_mem_set hu with hold | hnewu
      · exact hall u hold
      · subst hnewu; exact hnw
    rcases workerStep_spec cfg patterns (gen c.1) c.2 g w with
      ⟨hph, heq⟩ | ⟨hph, hr, heq⟩ | ⟨hph, hr, hN0, hge, heq⟩ |
      ⟨hph, hr, hnmax, hT0, htu, heq⟩ | ⟨hph, hr, hnmax, heq⟩ |
      ⟨k, hph, hm, heq⟩ | ⟨k, hph, hm, heq⟩ | ⟨hph, heq⟩ <;>
      rw [heq] <;> simp only []
    · constructor
      · exact h1
      · intro hr u hu
        rcases List.mem_or_eq_of_mem_set hu with hold | hnewu
        · exact h2 hr u hold
        · rw [hnewu]; exact h2 hr w hwmem
    · constructor
      · intro _; exact Nat.le_trans (h1 hr) (Nat.le_add_right _ _)
      · intro hrt; rw [hr] at hrt; cases hrt
    · constructor
      · intro _; exact Nat.le_trans hge (Nat.le_add_right _ _)
      · intro hrt; cases hrt
    · exfalso; omega
    · refine ⟨h1, ?_⟩
      intro hr u hu
      exact hmem2 _ (by simp) (h2 hr) u hu
    · exfalso
      rw [hnm c.1 w.pos] at hm
      cases hm
    · refine ⟨h1, ?_⟩
      intro hr u hu
      exact hmem2 _ (by simp) (h2 hr) u hu
    · constructor
      · intro hrf; exact Nat.le_trans (h1 hrf) (Nat.le_add_right _ _)
      · intro hr u hu
        exact hmem2 _ (by simp) (h2 hr) u hu


theorem upper_step (cfg : SearchConfig) (patterns : List Pattern)
    (gen : Nat → Nat → GeneratedAddress) (g : GState) (c : Nat × Bool)
    (numThreads : Nat) (hN : 1 ≤ cfg.maxAttempts) (htz : TopZero g)
    (hup : UpperInv cfg numThreads g) :
    UpperInv cfg numThreads (stepSys cfg patterns gen g c) := by
  obtain ⟨hlen, hbound⟩ := hup
  unfold stepSys
  cases hw : g.workers.get? c.1 with
  | none => exact ⟨hlen, hbound⟩
  | some w =>
    have hwmem := List.get?_mem hw
    simp only []
    rcases workerStep_spec cfg patterns (gen c.1) c.2 g w with
      ⟨hph, heq⟩ | ⟨hph, hr, heq⟩ | ⟨hph, hr, hN0, hge, heq⟩ |
      ⟨hph, hr, hnmax, hT0, htu, heq⟩ | ⟨hph, hr, hnmax, heq⟩ |
      ⟨k, hph, hm, heq⟩ | ⟨k, hph, hm, heq⟩ | ⟨hph, heq⟩ <;>
      rw [heq] <;>
      refine ⟨by simp [List.length_set, hlen], ?_⟩ <;> dsimp only []
    · have hbal := countP_set_balance isInBatch g.workers c.1 w w hw
      have hcp : (g.workers.set c.1 w).countP isInBatch = g.workers.countP isInBatch := by
        omega
      rw [hcp]
      exact hbound
    · have hw1 : isInBatch w = false := by simp [isInBatch, hph]
      have hw2 : isInBatch { w with phase := WPhase.done } = false := by simp [isInBatch]
      have hbal := countP_set_balance isInBatch g.workers c.1 w { w with phase := WPhase.done } hw
      rw [hw1, hw2] at hbal
      simp at hbal
      have hcp : (g.workers.set c.1 { w with phase := WPhase.done }).countP isInBatch =
          g.workers.countP isInBatch := hbal
      rw [hcp, htz w hwmem hph]
      omega
    · have hw1 : isInBatch w = false := by simp [isInBatch, hph]
      have hw2 : isInBatch { w with phase := WPhase.done } = false := by simp [isInBatch]
      have hbal := countP_set_balance isInBatch g.workers c.1 w { w with phase := WPhase.done } hw
      rw [hw1, hw2] at hbal
      simp at hbal
      rw [hbal, htz w hwmem hph]
      omega
    · have hw1 : isInBatch w = false := by simp [isInBatch, hph]
      have hw2 : isInBatch { w with phase := WPhase.done } = false := by simp [isInBatch]
      have hbal := countP_set_balance isInBatch g.workers c.1 w { w with phase := WPhase.done } hw
      rw [hw1, hw2] at hbal
      simp at hbal
      rw [hbal, htz w hwmem hph]
      omega
    · have hw1 : isInBatch w = false := by simp [isInBatch, hph]
      have hw2 : isInBatch { w with phase := WPhase.inBatch cfg.batchSize } = true := by
        simp [isInBatch]
      have hbal := countP_set_balance isInBatch g.workers c.1 w
        { w with phase := WPhase.inBatch cfg.batchSize } hw
      rw [hw1, hw2] at hbal
      simp at hbal
      have hklt : g.keysTested + 1 ≤ cfg.maxAttempts := by
        rcases Nat.lt_or_ge g.keysTested cfg.maxAttempts with hlt | hge2
        · omega
        · exact absurd ⟨hN, hge2⟩ hnmax
      have hcnt : g.workers.countP isInBatch + 1 ≤ numThreads := by
        have := countP_lt_of_mem isInBatch g.workers w hwmem hw1
        omega
      have hle : cfg.batchSize * (g.workers.countP isInBatch + 1) ≤
          cfg.batchSize * numThreads := Nat.mul_le_mul_left _ hcnt
      rw [hbal, Nat.mul_add, Nat.mul_one]
      rw [Nat.mul_add, Nat.mul_one] at hle
      have hcomm : cfg.batchSize * numThreads = numThreads * cfg.batchSize :=
        Nat.mul_comm _ _
      omega
    · have hw1 : isInBatch w = true := by simp [isInBatch, hph]
      have hw2 : isInBatch { w with phase := WPhase.done, pos := w.pos + 1 } = false := by
        simp [isInBatch]
      have hbal := countP_set_balance isInBatch g.workers c.1 w
        { w with phase := WPhase.done, pos := w.pos + 1 } hw
      rw [hw1, hw2] at hbal
      simp at hbal
      have hcp : (g.workers.set c.1 { w with phase := WPhase.done, pos := w.pos + 1 }).countP
          isInBatch ≤ g.workers.countP isInBatch := by omega
      have hmle := Nat.mul_le_mul_left cfg.batchSize hcp
      omega
    · have hw1 : isInBatch w = true := by simp [isInBatch, hph]
      have hw2 : isInBatch { w with phase := WPhase.inBatch k, pos := w.pos + 1, localCount := w.localCount + 1 } = true := by
        simp [isInBatch]
      have hbal := countP_set_balance isInBatch g.workers c.1 w
        { w with phase := WPhase.inBatch k, pos := w.pos + 1, localCount := w.localCount + 1 } hw
      rw [hw1, hw2] at hbal
      simp at hbal
      rw [hbal]
      exact hbound
    · have hw1 : isInBatch w = true := by simp [isInBatch, hph]
      have hw2 : isInBatch { w with phase := WPhase.top, localCount := 0 } = false := by
        simp [isInBatch]
      have hbal := countP_set_balance isInBatch g.workers c.1 w
        { w with phase := WPhase.top, localCount := 0 } hw
      rw [hw1, hw2] at hbal
      simp at hbal
      have hcp : g.workers.countP isInBatch =
          (g.workers.set c.1 { w with phase := WPhase.top, localCount := 0 }).countP
            isInBatch + 1 := by omega
      rw [hcp, Nat.mul_add, Nat.mul_one] at hbound
      omega


theorem phaseWeight_top (b : Nat) : phaseWeight b WPhase.top = b + 2 := rfl

theorem phaseWeight_inBatch (b k : Nat) : phaseWeight b (WPhase.inBatch k) = k + 1 := rfl

theorem phaseWeight_done (b : Nat) : phaseWeight b WPhase.done = 0 := rfl

theorem measure_dec (cfg : SearchConfig) (patterns : List Pattern)
    (gen : Nat → Nat → GeneratedAddress) (g : GState) (c : Nat × Bool)
    (numThreads : Nat) (w : WState)
    (hN : 1 ≤ cfg.maxAttempts) (hB : 1 ≤ cfg.batchSize)
    (hup : UpperInv cfg numThreads g)
    (hw : g.workers.get? c.1 = some w) (hnd : w.phase ≠ WPhase.done) :
    measureOf cfg numThreads (stepSys cfg patterns gen g c) <
      measureOf cfg numThreads g := by
  obtain ⟨hlen, hbound⟩ := hup
  have hwmem := List.get?_mem hw
  unfold stepSys
  rw [hw]
  simp only []
  rcases workerStep_spec cfg patterns (gen c.1) c.2 g w with
    ⟨hph, heq⟩ | ⟨hph, hr, heq⟩ | ⟨hph, hr, hN0, hge, heq⟩ |
    ⟨hph, hr, hnmax, hT0, htu, heq⟩ | ⟨hph, hr, hnmax, heq⟩ |
    ⟨k, hph, hm, heq⟩ | ⟨k, hph, hm, heq⟩ | ⟨hph, heq⟩
  · exact absurd hph hnd
  · rw [heq]
    unfold measureOf
    dsimp only []
    have hsum := sum_map_set (fun u => phaseWeight cfg.batchSize u.phase) g.workers c.1 w
      { w with phase := WPhase.done } hw
    simp only [hph, phaseWeight_top, phaseWeight_inBatch, phaseWeight_done] at hsum
    omega
  · rw [heq]
    unfold measureOf
    dsimp only []
    have hsum := sum_map_set (fun u => phaseWeight cfg.batchSize u.phase) g.workers c.1 w
      { w with phase := WPhase.done } hw
    simp only [hph, phaseWeight_top, phaseWeight_inBatch, phaseWeight_done] at hsum
    omega
  · rw [heq]
    unfold measureOf
    dsimp only []
    have hsum := sum_map_set (fun u => phaseWeight cfg.batchSize u.phase) g.workers c.1 w
      { w with phase := WPhase.done } hw
    simp only [hph, phaseWeight_top, phaseWeight_inBatch, phaseWeight_done] at hsum
    omega
  · rw [heq]
    unfold measureOf
    dsimp only []
    have hsum := sum_map_set (fun u => phaseWeight cfg.batchSize u.phase) g.workers c.1 w
      { w with phase := WPhase.inBatch cfg.batchSize } hw
    simp only [hph, phaseWeight_top, phaseWeight_inBatch, phaseWeight_done] at hsum
    omega
  · rw [heq]
    unfold measureOf
    dsimp only []
    have hsum := sum_map_set (fun u => phaseWeight cfg.batchSize u.phase) g.workers c.1 w
      { w with phase := WPhase.done, pos := w.pos + 1 } hw
    simp only [hph, phaseWeight_top, phaseWeight_inBatch, phaseWeight_done] at hsum
    omega
  · rw [heq]
    unfold measureOf
    dsimp only []
    have hsum := sum_map_set (fun u => phaseWeight cfg.batchSize u.phase) g.workers c.1 w
      { w with phase := WPhase.inBatch k, pos := w.pos + 1, localCount := w.localCount + 1 } hw
    simp only [hph, phaseWeight_top, phaseWeight_inBatch, phaseWeight_done] at hsum
    omega
  · rw [heq]
    unfold measureOf
    dsimp only []
    have hsum := sum_map_set (fun u => phaseWeight cfg.batchSize u.phase) g.workers c.1 w
      { w with phase := WPhase.top, localCount := 0 } hw
    simp only [hph, phaseWeight_top, phaseWeight_inBatch, phaseWeight_done] at hsum
    have hpos : 0 < g.workers.countP isInBatch :=
      countP_pos_of_mem isInBatch g.workers w hwmem (by simp [isInBatch, hph])
    have hble : cfg.batchSize * 1 ≤ cfg.batchSize * g.workers.countP isInBatch :=
      Nat.mul_le_mul_left _ hpos
    rw [Nat.mul_one] at hble
    omega


theorem slotInvStep (cfg : SearchConfig) (patterns : List Pattern)
    (gen : Nat → Nat → GeneratedAddress) (g : GState) (choice : Nat × Bool)
    (h : ∀ a, g.slot = some a → (pmMatches patterns a.address).isSome = true) :
    ∀ a, (stepSys cfg patterns gen g choice).slot = some a →
      (pmMatches patterns a.address).isSome = true := by
  unfold stepSys
  cases hw : g.workers.get? choice.1 with
  | none => exact h
  | some w =>
    simp only []
    unfold workerStep
    cases hph : w.phase with
    | done => simpa using h
    | top =>
      split_ifs <;> simpa using h
    | inBatch k =>
      cases k with
      | zero => simpa using h
      | succ k' =>
        simp only []
        split_ifs with hmatch hs
        · intro a ha
          simp only [] at ha
          cases ha
          exact hmatch
        · simpa using h
        · simpa using h


theorem countP_replicate_false {α : Type} (p : α → Bool) (a : α) (n : Nat)
    (h : p a = false) : (List.replicate n a).countP p = 0 := by
  induction n with
  | zero => rfl
  | succ m ih => simp [List.replicate, List.countP_cons, h, ih]

theorem run_length (cfg : SearchConfig) (patterns : List Pattern)
    (gen : Nat → Nat → GeneratedAddress) (sched : Nat → Nat × Bool)
    (numThreads : Nat) : ∀ n,
    (runSys cfg patterns gen sched numThreads n).workers.length = numThreads
  | 0 => by simp [runSys, initState]
  | n + 1 => by
    rw [runSys, length_step]
    exact run_length cfg patterns gen sched numThreads n

theorem slot_inv_run (cfg : SearchConfig) (patterns : List Pattern)
    (gen : Nat → Nat → GeneratedAddress) (sched : Nat → Nat × Bool)
    (numThreads : Nat) : ∀ n,
    ∀ a, (runSys cfg patterns gen sched numThreads n).slot = some a →
      (pmMatches patterns a.address).isSome = true
  | 0 => by intro a h; simp [runSys, initState] at h
  | n + 1 => by
    rw [runSys]
    exact slotInvStep cfg patterns gen _ _
      (slot_inv_run cfg patterns gen sched numThreads n)

theorem run_topKeys (cfg : SearchConfig) (patterns : List Pattern)
    (gen : Nat → Nat → GeneratedAddress) (sched : Nat → Nat × Bool)
    (numThreads : Nat) : ∀ n,
    TopZero (runSys cfg patterns gen sched numThreads n) ∧
      KeysByBatch cfg (runSys cfg patterns gen sched numThreads n)
  | 0 => by
    constructor
    · intro w hw ht
      have := List.eq_of_mem_replicate hw
      rw [this]
    · show (0 : Nat) = cfg.batchSize * 0
      simp
  | n + 1 => by
    rw [runSys]
    obtain ⟨htz, hkb⟩ := run_topKeys cfg patterns gen sched numThreads n
    exact topKeys_step cfg patterns gen _ _ htz hkb


/-- C1: whenever a search run returns `Some(result)`, the matcher accepts
`result.address.address`.  CPU path: for every configuration, random stream,
schedule and step count, a published result's address passes the matcher
(candidates reach the single-slot channel only after the matcher accepts
them).  GPU hybrid path: for every (adversarial) list of GPU-flagged
indices, every flagged index is re-verified by the CPU matcher before the
record is rebuilt, so — given that `generate_from_bytes` reproduces the
address saved with the key, which is how `generate_address` built the two
lists — the returned record's address passes the matcher. -/
theorem c1_result_matches :
    (∀ (cfg : SearchConfig) (patterns : List Pattern)
        (gen : Nat → Nat → GeneratedAddress) (sched : Nat → Nat × Bool)
        (numThreads n : Nat) (r : SearchResult),
      cpuResult patterns (runSys cfg patterns gen sched numThreads n) = some r →
      (pmMatches patterns r.address.address).isSome = true) ∧
    (∀ (patterns : List Pattern) (addressStrings : List (List Char))
        (keys : List (List Nat)) (fromBytes : List Nat → Option GeneratedAddress)
        (patStr : List Char) (total : Nat) (indices : List Nat) (res : SearchResult),
      (∀ i, i < addressStrings.length → ∀ r, fromBytes (keys.getD i []) = some r →
        r.address = addressStrings.getD i []) →
      processGpuMatches patterns addressStrings keys fromBytes patStr total indices =
        some res →
      (pmMatches patterns res.address.address).isSome = true) := by
  constructor
  · intro cfg patterns gen sched numThreads n r hres
    unfold cpuResult at hres
    cases hs : (runSys cfg patterns gen sched numThreads n).slot with
    | none => rw [hs] at hres; cases hres
    | some addr =>
      rw [hs] at hres
      simp only [] at hres
      cases hres
      exact slot_inv_run cfg patterns gen sched numThreads n addr hs
  · intro patterns addressStrings keys fromBytes patStr total indices
    induction indices with
    | nil => intro res _ hres; cases hres
    | cons idx rest ih =>
      intro res hcoh hres
      unfold processGpuMatches at hres
      by_cases hge : idx ≥ addressStrings.length
      · rw [if_pos hge] at hres
        exact ih res hcoh hres
      · rw [if_neg hge] at hres
        simp only [] at hres
        by_cases hm : (pmMatches patterns (addressStrings.getD idx [])).isSome = true
        · rw [if_pos hm] at hres
          cases hfb : fromBytes (keys.getD idx []) with
          | none => rw [hfb] at hres; exact ih res hcoh hres
          | some r =>
            rw [hfb] at hres
            simp only [] at hres
            cases hres
            have haddr := hcoh idx (by omega) r hfb
            simp only []
            rw [haddr]
            exact hm
        · rw [if_neg hm] at hres
          exact ih res hcoh hres

/-- C1 witness: a two-step CPU run that finds a hit, and a one-element GPU
batch whose flagged index is confirmed. -/
theorem c1_result_matches_witness :
    (pmMatches patsA
      (({ address := addrA, patternStr := ['a'], keysTested := 0 } :
        SearchResult)).address.address).isSome = true ∧
    (pmMatches patsA
      (({ address := addrA, patternStr := [], keysTested := 0 } :
        SearchResult)).address.address).isSome = true :=
  ⟨c1_result_matches.1 cfgB1 patsA (fun _ _ => addrA) sched0 1 2
      ⟨addrA, ['a'], 0⟩ (by decide),
    c1_result_matches.2 patsA [['a']] [[0]] (fun _ => some addrA) [] 0 [0]
      ⟨addrA, [], 0⟩
      (by
        intro i hi r hr
        simp only [List.length_cons, List.length_nil] at hi
        have hi0 : i = 0 := by omega
        subst hi0
        cases hr
        rfl)
      (by decide)⟩

/-- C10: in the CPU search path the `keys_tested` counter only ever
advances by whole batches: at every reachable state (in particular at
termination) it equals `batch_size` times the number of fully completed
batches across all workers; addresses of a partially completed batch — in
particular the batch in which the winning address is found — are never
counted. -/
theorem c10_batch_granularity (cfg : SearchConfig) (patterns : List Pattern)
    (gen : Nat → Nat → GeneratedAddress) (sched : Nat → Nat × Bool)
    (numThreads n : Nat) :
    (runSys cfg patterns gen sched numThreads n).keysTested =
      cfg.batchSize * (runSys cfg patterns gen sched numThreads n).completedBatches :=
  (run_topKeys cfg patterns gen sched numThreads n).2


theorem run_invariants (cfg : SearchConfig) (patterns : List Pattern)
    (gen : Nat → Nat → GeneratedAddress) (sched : Nat → Nat × Bool)
    (numThreads : Nat) (hN : 1 ≤ cfg.maxAttempts) (hT : cfg.maxTimeSecs = 0)
    (hnm : ∀ wi i, pmMatches patterns (gen wi i).address = none) : ∀ n,
    UpperInv cfg numThreads (runSys cfg patterns gen sched numThreads n) ∧
      StopInv cfg (runSys cfg patterns gen sched numThreads n)
  | 0 => by
    refine ⟨⟨by simp [runSys, initState], ?_⟩, ?_, ?_⟩
    · show (0 : Nat) + cfg.batchSize *
        ((List.replicate numThreads (⟨WPhase.top, 0, 0⟩ : WState)).countP isInBatch) + 1 ≤
        cfg.maxAttempts + numThreads * cfg.batchSize
      rw [countP_replicate_false isInBatch _ _ (by simp [isInBatch])]
      have : 0 ≤ numThreads * cfg.batchSize := Nat.zero_le _
      omega
    · intro hf
      cases hf
    · intro _ w hw _
      have := List.eq_of_mem_replicate hw
      simp_all
  | n + 1 => by
    obtain ⟨hup, hsi⟩ := run_invariants cfg patterns gen sched numThreads hN hT hnm n
    have htz := (run_topKeys cfg patterns gen sched numThreads n).1
    rw [runSys]
    exact ⟨upper_step cfg patterns gen _ _ numThreads hN htz hup,
      stop_step cfg patterns gen _ _ hT hnm hsi⟩

theorem measure_init (cfg : SearchConfig) (numThreads : Nat) :
    measureOf cfg numThreads (initState numThreads) =
      3 * (cfg.maxAttempts - 1 + numThreads * cfg.batchSize) +
        numThreads * (cfg.batchSize + 2) := by
  simp [measureOf, initState, List.map_replicate, List.sum_replicate, smul_eq_mul,
    phaseWeight_top]

/-- C3 (amended): for a search with `max_keys = N ≥ 1`, `batch_size ≥ 1`,
at least one worker, no wall-clock bound and no matching address, every
schedule that keeps scheduling unfinished workers drives the pool to
completion within the measure bound, and at any all-done state the
`keys_tested` counter lies between `N` and `N + worker_count · batch_size`
inclusive. -/
theorem c3_amended (cfg : SearchConfig) (patterns : List Pattern)
    (gen : Nat → Nat → GeneratedAddress) (sched : Nat → Nat × Bool)
    (numThreads : Nat)
    (hN : 1 ≤ cfg.maxAttempts) (hB : 1 ≤ cfg.batchSize) (hW : 1 ≤ numThreads)
    (hT : cfg.maxTimeSecs = 0)
    (hnm : ∀ wi i, pmMatches patterns (gen wi i).address = none)
    (hgs : goodSched cfg patterns gen sched numThreads) :
    allDone (runSys cfg patterns gen sched numThreads
      (3 * (cfg.maxAttempts - 1 + numThreads * cfg.batchSize) +
        numThreads * (cfg.batchSize + 2) + 1)) ∧
    ∀ n, allDone (runSys cfg patterns gen sched numThreads n) →
      cfg.maxAttempts ≤ (runSys cfg patterns gen sched numThreads n).keysTested ∧
      (runSys cfg patterns gen sched numThreads n).keysTested ≤
        cfg.maxAttempts + numThreads * cfg.batchSize := by
  have hinv := run_invariants cfg patterns gen sched numThreads hN hT hnm
  constructor
  · have hterm : ∀ k, allDone (runSys cfg patterns gen sched numThreads k) ∨
        measureOf cfg numThreads (runSys cfg patterns gen sched numThreads k) + k ≤
          3 * (cfg.maxAttempts - 1 + numThreads * cfg.batchSize) +
            numThreads * (cfg.batchSize + 2) := by
      intro k
      induction k with
      | zero =>
        right
        rw [show runSys cfg patterns gen sched numThreads 0 = initState numThreads from rfl,
          measure_init]
        omega
      | succ m ihm =>
        rcases ihm with hall | hm
        · left
          rw [runSys]
          exact allDone_step cfg patterns gen _ _ hall
        · by_cases hall : allDone (runSys cfg patterns gen sched numThreads m)
          · left
            rw [runSys]
            exact allDone_step cfg patterns gen _ _ hall
          · obtain ⟨w, hget, hnd⟩ := hgs m hall
            have hdec := measure_dec cfg patterns gen
              (runSys cfg patterns gen sched numThreads m) (sched m) numThreads w
              hN hB (hinv m).1 hget hnd
            right
            rw [runSys]
            omega
    rcases hterm (3 * (cfg.maxAttempts - 1 + numThreads * cfg.batchSize) +
        numThreads * (cfg.batchSize + 2) + 1) with h | h
    · exact h
    · exfalso; omega
  · intro n hall
    obtain ⟨⟨hlen, hbound⟩, h1, h2⟩ := hinv n
    have hrun : (runSys cfg patterns gen sched numThreads n).running = false := by
      cases hbool : (runSys cfg patterns gen sched numThreads n).running with
      | false => rfl
      | true =>
        exfalso
        cases hws : (runSys cfg patterns gen sched numThreads n).workers with
        | nil => rw [hws] at hlen; simp at hlen; omega
        | cons a t =>
          have hamem : a ∈ (runSys cfg patterns gen sched numThreads n).workers := by
            rw [hws]; simp
          exact (h2 hbool a hamem) (hall a hamem)
    refine ⟨h1 hrun, ?_⟩
    omega


theorem goodSched_single (cfg : SearchConfig) (patterns : List Pattern)
    (gen : Nat → Nat → GeneratedAddress) :
    goodSched cfg patterns gen sched0 1 := by
  intro i hnd
  have hlen := run_length cfg patterns gen sched0 1 i
  cases hws : (runSys cfg patterns gen sched0 1 i).workers with
  | nil => rw [hws] at hlen; cases hlen
  | cons a t =>
    rw [hws] at hlen
    simp only [List.length_cons] at hlen
    have ht : t = [] := by
      cases t with
      | nil => rfl
      | cons b u => simp at hlen
    subst ht
    refine ⟨a, ?_, ?_⟩
    · rfl
    · intro hdone
      apply hnd
      intro w hw
      rw [hws] at hw
      simp only [List.mem_singleton] at hw
      rw [hw]
      exact hdone

/-- C3 witness: one worker, `batch_size = 1`, `max_keys = 1`, a stream that
never matches; the run is all-done at step 4 with exactly one key counted. -/
theorem c3_amended_witness :
    1 ≤ (runSys cfgB1 patsA (fun _ _ => addrZ) sched0 1 4).keysTested ∧
      (runSys cfgB1 patsA (fun _ _ => addrZ) sched0 1 4).keysTested ≤ 1 + 1 * 1 := by
  have h := c3_amended cfgB1 patsA (fun _ _ => addrZ) sched0 1 (by decide) (by decide)
    (by decide) rfl (by intro wi i; show pmMatches patsA addrZ.address = none; decide)
    (goodSched_single cfgB1 patsA (fun _ _ => addrZ))
  exact h.2 4 (by decide)

/-- C3 counterexample: with `batch_size = 0` (a configuration the claim
quantifies over), `max_keys = 1`, one worker and a matchless stream, the
CPU search never terminates — the worker alternates between the loop head
and an empty batch while the counter stays at 0, so no all-done state is
ever reached. -/
theorem c3_counterexample :
    ¬ ∃ n, allDone (runSys cfgB0 patsA (fun _ _ => addrZ) sched0 1 n) := by
  have hbs : cfgB0.batchSize = 0 := rfl
  have hma : cfgB0.maxAttempts = 1 := rfl
  have hmt : cfgB0.maxTimeSecs = 0 := rfl
  have key : ∀ n, (runSys cfgB0 patsA (fun _ _ => addrZ) sched0 1 n).keysTested = 0 ∧
      (runSys cfgB0 patsA (fun _ _ => addrZ) sched0 1 n).running = true ∧
      ∃ ph pos lc, (ph = WPhase.top ∨ ph = WPhase.inBatch 0) ∧
        (runSys cfgB0 patsA (fun _ _ => addrZ) sched0 1 n).workers = [⟨ph, pos, lc⟩] := by
    intro n
    induction n with
    | zero => exact ⟨rfl, rfl, WPhase.top, 0, 0, Or.inl rfl, rfl⟩
    | succ m ihm =>
      obtain ⟨hk, hr, ph, pos, lc, hph, hws⟩ := ihm
      have hget : (runSys cfgB0 patsA (fun _ _ => addrZ) sched0 1 m).workers.get? 0 =
          some ⟨ph, pos, lc⟩ := by rw [hws]; rfl
      rw [runSys]
      rcases hph with hph | hph <;> subst hph
      · refine ⟨?_, ?_, WPhase.inBatch 0, pos, lc, Or.inr rfl, ?_⟩ <;>
          simp [stepSys, workerStep, hget, hws, hk, hr, sched0, hbs, hma, hmt]
      · refine ⟨?_, ?_, WPhase.top, pos, 0, Or.inl rfl, ?_⟩ <;>
          simp [stepSys, workerStep, hget, hws, hk, hr, sched0, hbs, hma, hmt]
  rintro ⟨n, hall⟩
  obtain ⟨hk, hr, ph, pos, lc, hph, hws⟩ := key n
  have hmem : (⟨ph, pos, lc⟩ : WState) ∈
      (runSys cfgB0 patsA (fun _ _ => addrZ) sched0 1 n).workers := by
    rw [hws]; simp
  have := hall _ hmem
  rcases hph with hph | hph <;> rw [hph] at this <;> cases this

end OmniVanity
